import Mathlib

/-!
Verification of the RAG chatbot backend (repository `ctg7987/rag-chatbot`).

This file gives a shallow embedding, in Lean, of the algorithmic core of the
`backend/` package — text normalization (`backend/utils.py`), whitespace
chunking (`backend/ingest.py`), document loading (`backend/ingest.py` and
`backend/utils.py`), the retrieve/rerank stage (`backend/retriever.py`), answer
synthesis (`backend/llm.py`), the collection-dimension guard of the two ingest
endpoints (`backend/app.py`, `backend/app_enhanced.py`), and the conversation
window of `backend/database.py` — and proves or refutes the specified
properties of those functions.

External collaborators (the Qdrant client, the OpenAI client, the
sentence-transformer models, pypdf text extraction, the filesystem) are
modelled as explicit function or data parameters; everything the repository
itself computes is translated directly from the Python source.
-/

namespace RagChatbot

/-- The set of characters Python treats as whitespace for `str`:
`str.split()` with no separator, `str.strip()` with no argument, and `\s` in
`re` (Unicode mode) all use this set.  Code points: 0x09–0x0D, 0x1C–0x1F,
space, NEL (0x85), NBSP (0xA0), 0x1680, 0x2000–0x200A, 0x2028, 0x2029,
0x202F, 0x205F, 0x3000. -/
def isPySpace (c : Char) : Bool :=
  decide ((9 ≤ c.toNat ∧ c.toNat ≤ 13) ∨ (28 ≤ c.toNat ∧ c.toNat ≤ 31) ∨
    c.toNat = 32 ∨ c.toNat = 0x85 ∨ c.toNat = 0xA0 ∨ c.toNat = 0x1680 ∨
    (0x2000 ≤ c.toNat ∧ c.toNat ≤ 0x200A) ∨ c.toNat = 0x2028 ∨
    c.toNat = 0x2029 ∨ c.toNat = 0x202F ∨ c.toNat = 0x205F ∨ c.toNat = 0x3000)

/-- The non-breaking space character U+00A0. -/
def nbspChar : Char := Char.ofNat 0xA0

/-- `text.replace(" ", " ")` acts on each character. -/
def replaceNBSP (c : Char) : Char := if c = nbspChar then ' ' else c

/-- `re.sub(r"\s+", " ", text)`: every maximal run of whitespace characters is
replaced by a single ordinary space. -/
def collapseWS : List Char → List Char
  | [] => []
  | c :: rest =>
    if isPySpace c then ' ' :: collapseWS (rest.dropWhile isPySpace)
    else c :: collapseWS rest
termination_by l => l.length
decreasing_by
  · exact Nat.lt_succ_of_le ((List.dropWhile_sublist _).length_le)
  · exact Nat.lt_succ_self _

/-- Python `str.strip()`: remove leading and trailing whitespace. -/
def pyStripChars (l : List Char) : List Char :=
  ((l.dropWhile isPySpace).reverse.dropWhile isPySpace).reverse

/-- `normalize_text` from `backend/utils.py`, on the character list:
replace U+00A0 by a space, collapse whitespace runs, strip the ends. -/
def normChars (l : List Char) : List Char :=
  pyStripChars (collapseWS (l.map replaceNBSP))

/-- `normalize_text` from `backend/utils.py`. -/
def normalize_text (s : String) : String := String.mk (normChars s.data)

/-- Adjacent characters are never both whitespace. -/
def NoWSRun (l : List Char) : Prop :=
  List.Chain' (fun a b => ¬(isPySpace a = true ∧ isPySpace b = true)) l

lemma head?_dropWhile_pySpace (l : List Char) :
    ∀ c, (l.dropWhile isPySpace).head? = some c → isPySpace c = false := by
  induction l with
  | nil => intro c h; simp at h
  | cons a t ih =>
    intro c h
    cases ha : isPySpace a with
    | true => rw [List.dropWhile_cons_of_pos ha] at h; exact ih c h
    | false =>
      rw [List.dropWhile_cons_of_neg (by simp [ha])] at h
      simp only [List.head?_cons, Option.some.injEq] at h
      rw [← h]; exact ha

lemma collapseWS_head? (l : List Char) :
    (collapseWS l).head? = l.head?.map (fun c => if isPySpace c then ' ' else c) := by
  match l with
  | [] => simp [collapseWS]
  | c :: rest =>
    rw [collapseWS]
    cases h : isPySpace c with
    | true => simp [h]
    | false => simp [h]

lemma collapseWS_mem_space (l : List Char) :
    ∀ c ∈ collapseWS l, isPySpace c = true → c = ' ' := by
  induction l using collapseWS.induct with
  | case1 => intro c hc; simp [collapseWS] at hc
  | case2 c rest h ih =>
    intro d hd hws
    rw [collapseWS, if_pos h] at hd
    rcases List.mem_cons.mp hd with h1 | h2
    · exact h1
    · exact ih d h2 hws
  | case3 c rest h ih =>
    intro d hd hws
    rw [collapseWS, if_neg h] at hd
    rcases List.mem_cons.mp hd with h1 | h2
    · subst h1; exact absurd hws (by simpa using h)
    · exact ih d h2 hws

lemma collapseWS_chain (l : List Char) : NoWSRun (collapseWS l) := by
  induction l using collapseWS.induct with
  | case1 => simp [collapseWS, NoWSRun]
  | case2 c rest h ih =>
    rw [NoWSRun, collapseWS, if_pos h, List.chain'_cons']
    refine ⟨?_, ih⟩
    intro y hy
    rw [collapseWS_head?] at hy
    cases hd : (rest.dropWhile isPySpace).head? with
    | none => rw [hd] at hy; simp at hy
    | some d =>
      have hdf := head?_dropWhile_pySpace rest d hd
      rw [hd] at hy
      simp only [Option.map_some', Option.mem_def, Option.some.injEq, hdf] at hy
      rw [if_neg (by simp)] at hy
      rw [← hy]
      rintro ⟨-, h2⟩
      rw [hdf] at h2
      exact Bool.false_ne_true h2
  | case3 c rest h ih =>
    rw [NoWSRun, collapseWS, if_neg h, List.chain'_cons']
    refine ⟨?_, ih⟩
    intro y _
    rintro ⟨h1, -⟩
    exact h h1

lemma pyStripChars_leading (l : List Char) :
    ∃ t, pyStripChars l ++ t = l.dropWhile isPySpace := by
  obtain ⟨u, hu⟩ :=
    List.dropWhile_suffix (l := (l.dropWhile isPySpace).reverse) isPySpace
  refine ⟨u.reverse, ?_⟩
  rw [pyStripChars, ← List.reverse_append, hu, List.reverse_reverse]

lemma pyStripChars_subset (l : List Char) : pyStripChars l ⊆ l := by
  intro c hc
  obtain ⟨t, ht⟩ := pyStripChars_leading l
  have h1 : c ∈ l.dropWhile isPySpace := by
    rw [← ht]
    exact List.mem_append_left _ hc
  exact (List.dropWhile_sublist isPySpace).subset h1

lemma pyStripChars_chain {R : Char → Char → Prop} (l : List Char)
    (h : List.Chain' R l) : List.Chain' R (pyStripChars l) := by
  obtain ⟨u, hu⟩ := List.dropWhile_suffix (l := l) isPySpace
  have h1 : List.Chain' R (l.dropWhile isPySpace) := by
    rw [← hu] at h
    exact (List.chain'_append.mp h).2.1
  obtain ⟨t, ht⟩ := pyStripChars_leading l
  rw [← ht] at h1
  exact (List.chain'_append.mp h1).1

lemma pyStripChars_head? (l : List Char) :
    ∀ c, (pyStripChars l).head? = some c → isPySpace c = false := by
  intro c hc
  obtain ⟨t, ht⟩ := pyStripChars_leading l
  have h : (l.dropWhile isPySpace).head? = some c := by
    rw [← ht, List.head?_append, hc]; rfl
  exact head?_dropWhile_pySpace l c h

lemma pyStripChars_getLast? (l : List Char) :
    ∀ c, (pyStripChars l).getLast? = some c → isPySpace c = false := by
  intro c hc
  rw [pyStripChars, List.getLast?_reverse] at hc
  exact head?_dropWhile_pySpace _ c hc

lemma normChars_mem_space (l : List Char) :
    ∀ c ∈ normChars l, isPySpace c = true → c = ' ' := by
  intro c hc
  exact collapseWS_mem_space _ c (pyStripChars_subset _ hc)

lemma normChars_no_nbsp (l : List Char) : nbspChar ∉ normChars l := by
  intro h
  have h1 : isPySpace nbspChar = true := by decide
  have h2 := normChars_mem_space l nbspChar h h1
  exact absurd h2 (by decide)

lemma normChars_chain (l : List Char) : NoWSRun (normChars l) :=
  pyStripChars_chain _ (collapseWS_chain (l.map replaceNBSP))

lemma normChars_head? (l : List Char) :
    ∀ c, (normChars l).head? = some c → isPySpace c = false :=
  pyStripChars_head? _

lemma normChars_getLast? (l : List Char) :
    ∀ c, (normChars l).getLast? = some c → isPySpace c = false :=
  pyStripChars_getLast? _

lemma map_replaceNBSP_of_no_nbsp (l : List Char) (h : nbspChar ∉ l) :
    l.map replaceNBSP = l := by
  induction l with
  | nil => rfl
  | cons a t ih =>
    have ha : a ≠ nbspChar := fun he => h (he ▸ List.mem_cons_self a t)
    rw [List.map_cons, replaceNBSP, if_neg ha,
      ih (fun ht => h (List.mem_cons_of_mem a ht))]

lemma collapseWS_of_clean (l : List Char)
    (hc : ∀ c ∈ l, isPySpace c = true → c = ' ') (hch : NoWSRun l) :
    collapseWS l = l := by
  induction l with
  | nil => simp [collapseWS]
  | cons a t ih =>
    rw [collapseWS]
    cases ha : isPySpace a with
    | true =>
      rw [if_pos rfl]
      have ha' : a = ' ' := hc a (List.mem_cons_self a t) ha
      have ht : t.dropWhile isPySpace = t := by
        cases t with
        | nil => rfl
        | cons b u =>
          have hb := (List.chain'_cons.mp hch).1
          have hbf : isPySpace b = false := by
            cases hbb : isPySpace b with
            | true => exact absurd ⟨ha, hbb⟩ hb
            | false => rfl
          rw [List.dropWhile_cons_of_neg (by simp [hbf])]
      rw [ht, ih (fun c hm => hc c (List.mem_cons_of_mem a hm)) hch.tail, ha']
    | false =>
      rw [if_neg (by simp),
        ih (fun c hm => hc c (List.mem_cons_of_mem a hm)) hch.tail]

lemma dropWhile_of_head_false (l : List Char)
    (h : ∀ c, l.head? = some c → isPySpace c = false) :
    l.dropWhile isPySpace = l := by
  cases l with
  | nil => rfl
  | cons a t =>
    have := h a rfl
    rw [List.dropWhile_cons_of_neg (by simp [this])]

lemma pyStripChars_of_clean (l : List Char)
    (hh : ∀ c, l.head? = some c → isPySpace c = false)
    (hl : ∀ c, l.getLast? = some c → isPySpace c = false) :
    pyStripChars l = l := by
  rw [pyStripChars, dropWhile_of_head_false l hh,
    dropWhile_of_head_false l.reverse
      (fun c hc => hl c (by rwa [List.head?_reverse] at hc)),
    List.reverse_reverse]

lemma normChars_idem (l : List Char) : normChars (normChars l) = normChars l := by
  conv_lhs => rw [normChars]
  rw [map_replaceNBSP_of_no_nbsp _ (normChars_no_nbsp l),
    collapseWS_of_clean _ (normChars_mem_space l) (normChars_chain l),
    pyStripChars_of_clean _ (normChars_head? l) (normChars_getLast? l)]

/-- C8: `normalize_text` is a pure total function; its output contains no
non-breaking space (U+00A0) and no run of two or more whitespace characters,
has no leading or trailing whitespace, and it is idempotent. -/
theorem normalize_text_spec (s : String) :
    nbspChar ∉ (normalize_text s).data ∧
    NoWSRun (normalize_text s).data ∧
    (∀ c, (normalize_text s).data.head? = some c → isPySpace c = false) ∧
    (∀ c, (normalize_text s).data.getLast? = some c → isPySpace c = false) ∧
    normalize_text (normalize_text s) = normalize_text s := by
  refine ⟨normChars_no_nbsp _, normChars_chain _, normChars_head? _,
    normChars_getLast? _, ?_⟩
  show String.mk (normChars (normChars s.data)) = String.mk (normChars s.data)
  rw [normChars_idem]

/-! ### Chunker (`_chunk_text` in `backend/ingest.py`) -/

/-- Python `"sep".join(parts)`. -/
def pyJoin (sep : String) : List String → String
  | [] => ""
  | [a] => a
  | a :: b :: rest => a ++ sep ++ pyJoin sep (b :: rest)

/-- Worker for Python `str.split()` with no separator: split on runs of
whitespace, discarding empty pieces.  `acc` holds the current word reversed. -/
def splitWSGo (acc : List Char) : List Char → List String
  | [] => if acc.isEmpty then [] else [String.mk acc.reverse]
  | c :: rest =>
    if isPySpace c then
      if acc.isEmpty then splitWSGo [] rest
      else String.mk acc.reverse :: splitWSGo [] rest
    else splitWSGo (c :: acc) rest

/-- Python `text.split()` (no separator). -/
def pySplit (s : String) : List String := splitWSGo [] s.data

/-- `step = max(1, int(target_tokens * (1 - overlap_ratio)))` with the default
`target_tokens = 400`, `overlap_ratio = 0.2`.  In IEEE-754 arithmetic
`400 * (1 - 0.2)` evaluates to exactly `320.0`, so `int(...) = 320`. -/
def chunkStep : Nat := max 1 320

/-- The loop body of `_chunk_text`:
`for start in range(0, n, step): end = min(n, start + target); append
" ".join(tokens[start:end]); if end == n: break` with `target = 400`. -/
def chunkGo (tokens : List String) (step : Nat) (hstep : 0 < step)
    (start : Nat) : List String :=
  if _h : start < tokens.length then
    if min tokens.length (start + 400) = tokens.length then
      [pyJoin " " ((tokens.drop start).take (min tokens.length (start + 400) - start))]
    else
      pyJoin " " ((tokens.drop start).take (min tokens.length (start + 400) - start))
        :: chunkGo tokens step hstep (start + step)
  else []
termination_by tokens.length - start
decreasing_by omega

/-- `_chunk_text` from `backend/ingest.py` with the default arguments
(`target_tokens = 400`, `overlap_ratio = 0.2`). -/
def chunk_text (text : String) : List String :=
  let tokens := pySplit text
  if tokens.length = 0 then []
  else chunkGo tokens chunkStep (by decide) 0

lemma chunkGo_eq (tokens : List String) (step : Nat) (hstep : 0 < step)
    (start : Nat) (h : start < tokens.length) :
    chunkGo tokens step hstep start =
      if min tokens.length (start + 400) = tokens.length then
        [pyJoin " " ((tokens.drop start).take (min tokens.length (start + 400) - start))]
      else
        pyJoin " " ((tokens.drop start).take (min tokens.length (start + 400) - start))
          :: chunkGo tokens step hstep (start + step) := by
  rw [chunkGo, dif_pos h]

lemma chunkGo_spec (tokens : List String) (step : Nat) (hstep : 0 < step)
    (h400 : step ≤ 400) :
    ∀ start, start < tokens.length →
    (∀ i, i < (chunkGo tokens step hstep start).length →
        start + step * i < tokens.length) ∧
    (∀ i (hi : i < (chunkGo tokens step hstep start).length),
        (chunkGo tokens step hstep start).get ⟨i, hi⟩ =
          pyJoin " " ((tokens.drop (start + step * i)).take
            (min tokens.length (start + step * i + 400) - (start + step * i)))) ∧
    chunkGo tokens step hstep start ≠ [] ∧
    min tokens.length
      (start + step * ((chunkGo tokens step hstep start).length - 1) + 400) =
      tokens.length ∧
    (∀ i, i + 1 < (chunkGo tokens step hstep start).length →
        min tokens.length (start + step * i + 400) ≠ tokens.length) := by
  have main : ∀ m start, tokens.length - start = m → start < tokens.length →
      (∀ i, i < (chunkGo tokens step hstep start).length →
          start + step * i < tokens.length) ∧
      (∀ i (hi : i < (chunkGo tokens step hstep start).length),
          (chunkGo tokens step hstep start).get ⟨i, hi⟩ =
            pyJoin " " ((tokens.drop (start + step * i)).take
              (min tokens.length (start + step * i + 400) - (start + step * i)))) ∧
      chunkGo tokens step hstep start ≠ [] ∧
      min tokens.length
        (start + step * ((chunkGo tokens step hstep start).length - 1) + 400) =
        tokens.length ∧
      (∀ i, i + 1 < (chunkGo tokens step hstep start).length →
          min tokens.length (start + step * i + 400) ≠ tokens.length) := by
    intro m
    induction m using Nat.strong_induction_on with
    | _ m ih =>
      intro start hm hs
      rw [chunkGo_eq tokens step hstep start hs]
      by_cases hmin : min tokens.length (start + 400) = tokens.length
      · rw [if_pos hmin]
        refine ⟨?_, ?_, by simp, ?_, ?_⟩
        · intro i hi
          simp only [List.length_singleton] at hi
          interval_cases i
          simpa using hs
        · intro i hi
          simp only [List.length_singleton] at hi
          interval_cases i
          simp
        · simp only [List.length_singleton]
          omega
        · intro i hi
          simp only [List.length_singleton] at hi
          omega
      · rw [if_neg hmin]
        have hlt : start + step < tokens.length := by omega
        obtain ⟨ih1, ih2, ih3, ih4, ih5⟩ :=
          ih (tokens.length - (start + step)) (by omega) (start + step) rfl hlt
        refine ⟨?_, ?_, by simp, ?_, ?_⟩
        · intro i hi
          cases i with
          | zero => simpa using hs
          | succ j =>
            simp only [List.length_cons] at hi
            have hj := ih1 j (by omega)
            have harith : step * (j + 1) = step * j + step := by ring
            rw [harith]
            omega
        · intro i hi
          cases i with
          | zero => simp
          | succ j =>
            simp only [List.length_cons] at hi
            have hj : j < (chunkGo tokens step hstep (start + step)).length := by
              omega
            have harith : start + step * (j + 1) = start + step + step * j := by
              ring
            simp only [List.get_cons_succ, harith]
            exact ih2 j hj
        · simp only [List.length_cons, Nat.add_sub_cancel]
          obtain ⟨k, hk⟩ : ∃ k, (chunkGo tokens step hstep (start + step)).length
              = k + 1 :=
            ⟨_, (Nat.succ_pred_eq_of_pos (List.length_pos.mpr ih3)).symm⟩
          rw [hk] at ih4 ⊢
          simp only [Nat.add_sub_cancel] at ih4
          have harith : step * (k + 1) = step * k + step := by ring
          rw [harith]
          omega
        · intro i hi
          simp only [List.length_cons] at hi
          cases i with
          | zero => simpa using hmin
          | succ j =>
            have hj := ih5 j (by omega)
            have harith : step * (j + 1) = step * j + step := by ring
            rw [harith]
            omega
  exact fun start hs => main (tokens.length - start) start rfl hs

lemma ne_empty_of_length_pos {s : String} (h : 0 < s.length) : s ≠ "" := by
  intro he
  rw [he] at h
  simp at h

lemma splitWSGo_ne_empty :
    ∀ (cs : List Char) (acc : List Char), ∀ t ∈ splitWSGo acc cs, t ≠ "" := by
  intro cs
  induction cs with
  | nil =>
    intro acc t ht
    rw [splitWSGo] at ht
    by_cases hacc : acc.isEmpty
    · rw [if_pos hacc] at ht; simp at ht
    · rw [if_neg hacc] at ht
      simp only [List.mem_singleton] at ht
      subst ht
      intro he
      have : acc.reverse = [] := by
        have := congrArg String.data he
        simpa using this
      simp only [List.reverse_eq_nil_iff] at this
      rw [this] at hacc
      simp at hacc
  | cons c rest ih =>
    intro acc t ht
    rw [splitWSGo] at ht
    by_cases hws : isPySpace c
    · rw [if_pos hws] at ht
      by_cases hacc : acc.isEmpty
      · rw [if_pos hacc] at ht
        exact ih [] t ht
      · rw [if_neg hacc] at ht
        rcases List.mem_cons.mp ht with h1 | h2
        · subst h1
          intro he
          have : acc.reverse = [] := by
            have := congrArg String.data he
            simpa using this
          simp only [List.reverse_eq_nil_iff] at this
          rw [this] at hacc
          simp at hacc
        · exact ih [] t h2
    · rw [if_neg hws] at ht
      exact ih (c :: acc) t ht

lemma pySplit_ne_empty (s : String) : ∀ t ∈ pySplit s, t ≠ "" :=
  splitWSGo_ne_empty s.data []

lemma pyJoin_space_ne_empty :
    ∀ (xs : List String), xs ≠ [] → (∀ t ∈ xs, t ≠ "") → pyJoin " " xs ≠ "" := by
  intro xs hne hts
  match xs with
  | [a] =>
    rw [pyJoin]
    exact hts a (List.mem_singleton_self a)
  | a :: b :: rest =>
    rw [pyJoin]
    apply ne_empty_of_length_pos
    rw [String.length_append, String.length_append]
    have hsp : (" " : String).length = 1 := rfl
    omega

lemma chunk_window_ne_empty (tokens : List String) (htok : ∀ t ∈ tokens, t ≠ "")
    (s : Nat) (hs : s < tokens.length) :
    pyJoin " " ((tokens.drop s).take (min tokens.length (s + 400) - s)) ≠ "" := by
  apply pyJoin_space_ne_empty
  · have hlen : ((tokens.drop s).take (min tokens.length (s + 400) - s)).length
        = min (min tokens.length (s + 400) - s) (tokens.length - s) := by
      simp [List.length_take, List.length_drop]
    intro hnil
    rw [hnil] at hlen
    simp only [List.length_nil] at hlen
    omega
  · intro t ht
    exact htok t (List.drop_subset s tokens (List.take_subset _ _ ht))

/-- The conclusion of claim C1 for a text whose whitespace token list is
non-empty: the emitted chunks are exactly the windows
`tokens[start : min(n, start + 400))` joined with single spaces for
`start = 0, 320, 640, …`, every chunk is non-empty, only the last window has
end index `n`, and the loop stops there. -/
def ChunkSpecNonempty (text : String) : Prop :=
  chunk_text text ≠ [] ∧
  (∀ i, i < (chunk_text text).length →
      (chunk_text text)[i]? =
        some (pyJoin " " (((pySplit text).drop (320 * i)).take
          (min (pySplit text).length (320 * i + 400) - 320 * i)))) ∧
  (∀ c ∈ chunk_text text, c ≠ "") ∧
  min (pySplit text).length
    (320 * ((chunk_text text).length - 1) + 400) = (pySplit text).length ∧
  (∀ i, i + 1 < (chunk_text text).length →
      min (pySplit text).length (320 * i + 400) ≠ (pySplit text).length)

/-- C1: `_chunk_text` splits on whitespace; on zero tokens it returns the
empty sequence, otherwise it emits the windows `[start, min(n, start + 400))`
at starts that are multiples of `step = max(1, int(400 * (1 - 0.2))) = 320`,
each rejoined with single spaces; every chunk is non-empty; it stops right
after the first window whose end index is `n`, which is the only such
window (the last). -/
theorem chunk_text_spec (text : String) :
    (pySplit text = [] → chunk_text text = []) ∧
    (pySplit text ≠ [] → ChunkSpecNonempty text) := by
  constructor
  · intro h
    rw [chunk_text]
    simp [h]
  · intro h
    have hn : 0 < (pySplit text).length := List.length_pos.mpr h
    have hout : chunk_text text
        = chunkGo (pySplit text) chunkStep (by decide) 0 := by
      rw [chunk_text]
      simp only [if_neg (by omega : ¬ (pySplit text).length = 0)]
    obtain ⟨h1, h2, h3, h4, h5⟩ :=
      chunkGo_spec (pySplit text) chunkStep (by decide) (by decide) 0 hn
    simp only [Nat.zero_add] at h1 h2 h4 h5
    refine ⟨by rw [hout]; exact h3, ?_, ?_, ?_, ?_⟩
    · intro i hi
      rw [hout] at hi ⊢
      rw [List.getElem?_eq_getElem hi]
      refine congrArg some ?_
      simpa using h2 i hi
    · intro c hc
      rw [hout] at hc
      obtain ⟨⟨i, hi⟩, hgi⟩ := List.mem_iff_get.mp hc
      rw [← hgi, h2 i hi]
      exact chunk_window_ne_empty (pySplit text) (pySplit_ne_empty text)
        (320 * i) (h1 i hi)
    · rw [hout]
      exact h4
    · intro i hi
      rw [hout] at hi
      exact h5 i hi

/-- Witness for C1 at the concrete text `"a b c"`. -/
theorem chunk_text_spec_witness :
    pySplit "a b c" ≠ [] ∧ ChunkSpecNonempty "a b c" :=
  ⟨by decide, (chunk_text_spec "a b c").2 (by decide)⟩

/-! ### Retrieve/rerank (`retrieve` in `backend/retriever.py`) -/

/-- The payload stored with an indexed point, as read back from a search hit;
the source reads each field with `payload.get(key, default)`, so every field
may be absent. -/
structure HitPayload where
  text : Option String
  filename : Option String
  page_start : Option Int
  page_end : Option Int
  chunk_id : Option String
deriving DecidableEq

/-- A hit returned by `qclient.search` (the list is similarity-ranked). -/
structure Hit where
  id : String
  payload : HitPayload
deriving DecidableEq

/-- One element of the list `retrieve` returns. -/
structure RankedDoc where
  text : String
  filename : String
  page_start : Int
  page_end : Int
  chunk_id : String
  score : ℚ
deriving DecidableEq

/-- The ordering used to model
`sorted(zip(hits, scores), key=lambda x: x[1], reverse=True)`.
Python's sort is stable and `reverse=True` keeps elements with equal keys in
their original order, so the call equals the stable merge sort by
"later score ≤ earlier score".  Cross-encoder scores are opaque reals,
modelled as rationals. -/
def rerankLE (a b : Hit × ℚ) : Bool := decide (b.2 ≤ a.2)

/-- The output row built from one scored hit (`retriever.py` lines 34–43). -/
def rankedOut (hs : Hit × ℚ) : RankedDoc :=
  { text := hs.1.payload.text.getD ""
    filename := hs.1.payload.filename.getD ""
    page_start := hs.1.payload.page_start.getD 0
    page_end := hs.1.payload.page_end.getD 0
    chunk_id := hs.1.payload.chunk_id.getD hs.1.id
    score := hs.2 }

/-- `retrieve` from `backend/retriever.py`, after its two external calls:
`hits` is the similarity-ranked list returned by `qclient.search` and
`scorer` models `_reranker.predict` on a single `(question, text)` pair. -/
def retrieve (scorer : String → String → ℚ) (question : String)
    (hits : List Hit) : List RankedDoc :=
  if hits.isEmpty then []
  else
    let pairs := hits.map (fun h => (question, h.payload.text.getD ""))
    let scores := pairs.map (fun p => scorer p.1 p.2)
    (((hits.zip scores).mergeSort rerankLE).take 4).map rankedOut

lemma rerankLE_trans : ∀ a b c : Hit × ℚ,
    rerankLE a b → rerankLE b c → rerankLE a c := by
  intro a b c h1 h2
  simp only [rerankLE, decide_eq_true_eq] at h1 h2 ⊢
  exact h2.trans h1

lemma rerankLE_total : ∀ a b : Hit × ℚ, rerankLE a b || rerankLE b a := by
  intro a b
  simp only [rerankLE, Bool.or_eq_true, decide_eq_true_eq]
  exact le_total b.2 a.2

/-- The conclusion of claim C2 for a non-empty candidate list: the output is
the stable descending sort by rerank score truncated to `keep = 4`; its
length is `min 4 |hits|`; its scores are non-increasing; and candidates in
original (similarity) order whose scores do not force a swap keep their
relative order — in particular ties preserve the original order. -/
def RerankSpec (scorer : String → String → ℚ) (question : String)
    (hits : List Hit) : Prop :=
  let scores := hits.map (fun h => scorer question (h.payload.text.getD ""))
  let sortedPairs := (hits.zip scores).mergeSort rerankLE
  retrieve scorer question hits = (sortedPairs.take 4).map rankedOut ∧
  (retrieve scorer question hits).length = min 4 hits.length ∧
  ((retrieve scorer question hits).map RankedDoc.score).Pairwise
    (fun a b => b ≤ a) ∧
  (∀ a b : Hit × ℚ, List.Sublist [a, b] (hits.zip scores) → b.2 ≤ a.2 →
      List.Sublist [a, b] sortedPairs)

/-- C2: for every query and non-empty candidate list, the rerank stage scores
each `(query, text)` pair, sorts by descending score with a stable sort
(equal scores keep the similarity-ranked order) and truncates to `keep = 4`;
the output length is `min 4 |candidates|` and the output scores are
non-increasing. -/
theorem retrieve_spec (scorer : String → String → ℚ) (question : String)
    (hits : List Hit) (h : hits ≠ []) : RerankSpec scorer question hits := by
  have hne : hits.isEmpty = false := by
    simp [List.isEmpty_iff, h]
  have e1 : retrieve scorer question hits =
      (((hits.zip (hits.map (fun hh => scorer question
        (hh.payload.text.getD "")))).mergeSort rerankLE).take 4).map rankedOut := by
    rw [retrieve, hne]
    simp only [Bool.false_eq_true, if_false, List.map_map]
    rfl
  refine ⟨e1, ?_, ?_, ?_⟩
  · rw [e1]
    simp [List.length_take, List.length_zip]
  · rw [e1]
    have hsorted := @List.sorted_mergeSort (Hit × ℚ) rerankLE
      rerankLE_trans rerankLE_total
      (hits.zip (hits.map (fun hh => scorer question (hh.payload.text.getD ""))))
    have hp := List.Pairwise.sublist (List.take_sublist 4 _) hsorted
    rw [List.map_map, List.pairwise_map]
    exact hp.imp (fun hab => by
      simpa only [rerankLE, decide_eq_true_eq] using hab)
  · intro a b hsub hle
    exact List.pair_sublist_mergeSort rerankLE_trans rerankLE_total
      (by simpa only [rerankLE, decide_eq_true_eq] using hle) hsub

/-- A concrete search hit used by witnesses. -/
def sampleHitA : Hit :=
  ⟨"pt-a", ⟨some "alpha text", some "a.txt", some 1, some 1, some "d-0"⟩⟩

/-- A second concrete search hit used by witnesses. -/
def sampleHitB : Hit :=
  ⟨"pt-b", ⟨some "beta text", some "b.txt", some 2, some 2, some "d-1"⟩⟩

/-- Witness for C2 at two concrete candidates and a constant scorer. -/
theorem retrieve_spec_witness :
    ([sampleHitA, sampleHitB] : List Hit) ≠ [] ∧
      RerankSpec (fun _ _ => 0) "q" [sampleHitA, sampleHitB] :=
  ⟨List.cons_ne_nil _ _,
    retrieve_spec (fun _ _ => 0) "q" [sampleHitA, sampleHitB]
      (List.cons_ne_nil _ _)⟩

/-! ### Answer synthesis (`backend/llm.py`) -/

/-- `Citation` from `backend/models.py`. -/
structure Citation where
  filename : String
  page_start : Int
  page_end : Int
  chunk_id : String
deriving DecidableEq

/-- `Answer` from `backend/models.py` (the optional `session_id` plays no
role in the verified properties and is omitted). -/
structure Answer where
  answer : String
  citations : List Citation
deriving DecidableEq

/-- `_format_citations` from `backend/llm.py` (lines 8–19). -/
def _format_citations (docs : List RankedDoc) : List Citation :=
  docs.map (fun d => Citation.mk d.filename d.page_start d.page_end d.chunk_id)

/-- `_compose_context` from `backend/llm.py` (lines 22–28). -/
def _compose_context (docs : List RankedDoc) : String :=
  pyJoin "\n\n" (docs.map (fun d =>
    "[" ++ d.filename ++ " p" ++ toString d.page_start ++ "-"
      ++ toString d.page_end ++ " | " ++ d.chunk_id ++ "]" ++ "\n" ++ d.text))

/-- Modelled from the spec: `SYSTEM_PROMPT` comes from `backend/prompt.py`,
which is not among the provided sources.  It is passed opaquely to the
generative model, and no verified claim depends on its value. -/
def SYSTEM_PROMPT : String := ""

/-- Python `s.strip()` on a string value. -/
def pyStripStr (s : String) : String := String.mk (pyStripChars s.data)

/-- Python `s[:n]` (slicing counts code points). -/
def pyTake (s : String) (n : Nat) : String := String.mk (s.data.take n)

/-- Worker for Python `context_text.split('. ')`: split at each
non-overlapping occurrence of the two-character separator, scanning left to
right; `acc` holds the current piece reversed. -/
def splitDotSpace (acc : List Char) : List Char → List (List Char)
  | '.' :: ' ' :: rest => acc.reverse :: splitDotSpace [] rest
  | c :: rest => splitDotSpace (c :: acc) rest
  | [] => [acc.reverse]

/-- Python `context_text.split('. ')`. -/
def pySplitDotSpace (s : String) : List String :=
  (splitDotSpace [] s.data).map String.mk

/-- The deterministic fallback text of `answer_question`
(`backend/llm.py` lines 58–72): for long contexts take the first one or two
sentences (`split('. ')`), otherwise a 300-character truncated snippet or
the context itself.  The two nested Python conditionals
(`main_answer = sentences[0] + "."` then conditionally
`main_answer += " " + sentences[1] + "."`) are written as one branch
each. -/
def stub_main_answer (context_text : String) : String :=
  if 100 < context_text.length then
    if 1 < (pySplitDotSpace context_text).length then
      if 2 < (pySplitDotSpace context_text).length then
        (pySplitDotSpace context_text).getD 0 "" ++ "." ++ " "
          ++ (pySplitDotSpace context_text).getD 1 "" ++ "."
      else (pySplitDotSpace context_text).getD 0 "" ++ "."
    else
      if 300 < context_text.length then pyTake context_text 300 ++ "..."
      else context_text
  else context_text

/-- `answer_question` from `backend/llm.py` (lines 31–77).  `genModel`
models the presence of `OPENAI_API_KEY` together with the chat-completion
call `(system, user) ↦ content`; `none` selects the deterministic stub
path. -/
def answer_question (genModel : Option (String → String → String))
    (question : String) (docs : List RankedDoc) : Answer :=
  match docs with
  | [] => ⟨"I don't know based on the provided context.", []⟩
  | d :: rest =>
    match genModel with
    | some complete =>
      ⟨pyStripStr (complete SYSTEM_PROMPT
          ("Answer the user's question using ONLY the following context. "
            ++ "If the answer isn't contained, say you don't know.\n\n"
            ++ "Context:\n" ++ _compose_context (d :: rest)
            ++ "\n\nQuestion: " ++ question)),
        _format_citations (d :: rest)⟩
    | none =>
      ⟨"Based on the available information: " ++ stub_main_answer d.text,
        _format_citations (d :: rest)⟩

/-- The no-index result of `ImprovedRAGService.query`
(`backend-django/api/rag_service.py`). -/
structure DjangoQueryOut where
  answer : String
  citations : List Citation
  sources : List String
deriving DecidableEq

/-- `ImprovedRAGService.query` (`backend-django/api/rag_service.py` lines
204–260): when no index has been built the method returns its fixed message
with empty citations and sources and consults no query engine; otherwise the
(external) query engine runs on the context-augmented query, modelled
opaquely by `engine`. -/
def improvedRAGQuery (engine : String → DjangoQueryOut) (hasIndex : Bool)
    (question : String) (session_context : Option String) : DjangoQueryOut :=
  if !hasIndex then
    ⟨"No documents have been indexed yet. Please upload some documents first.",
      [], []⟩
  else
    engine (match session_context with
      | some ctx => "Context: " ++ ctx ++ "\n\nQuestion: " ++ question
      | none => question)

/-- C4: with an empty ranked-result list, `answer_question` returns the fixed
"don't know" message with an empty citation list and performs no synthesis;
likewise the Django service returns its fixed "no documents indexed" message
with empty citations when the index holds no documents. -/
theorem answer_question_empty (genModel : Option (String → String → String))
    (question : String) (engine : String → DjangoQueryOut)
    (ctx : Option String) :
    answer_question genModel question [] =
      ⟨"I don't know based on the provided context.", []⟩ ∧
    improvedRAGQuery engine false question ctx =
      ⟨"No documents have been indexed yet. Please upload some documents first.",
        [], []⟩ :=
  ⟨rfl, rfl⟩

/-- C5: for a non-empty ranked list the Answer carries exactly one citation
per ranked result, in rerank order, the i-th citation's
filename/page_start/page_end/chunk_id copied from the i-th result — on the
generative path and the fallback path alike. -/
theorem answer_question_citations (genModel : Option (String → String → String))
    (question : String) (d : RankedDoc) (rest : List RankedDoc) :
    (answer_question genModel question (d :: rest)).citations =
      (d :: rest).map
        (fun r => Citation.mk r.filename r.page_start r.page_end r.chunk_id) := by
  cases genModel <;> rfl

/-- C6: with no generative model configured and a non-empty ranked list, the
fallback path deterministically derives the answer from the top-ranked
result's text (first one–two sentences or a truncated snippet), never fails
and is never empty; for a single retrieved chunk the answer carries exactly
one citation referencing that chunk's fields. -/
theorem answer_question_fallback (question : String) (d : RankedDoc)
    (rest : List RankedDoc) :
    (answer_question none question (d :: rest)).answer =
      "Based on the available information: " ++ stub_main_answer d.text ∧
    (answer_question none question (d :: rest)).answer ≠ "" ∧
    (answer_question none question [d]).citations =
      [Citation.mk d.filename d.page_start d.page_end d.chunk_id] := by
  refine ⟨rfl, ?_, rfl⟩
  show "Based on the available information: " ++ stub_main_answer d.text ≠ ""
  apply ne_empty_of_length_pos
  rw [String.length_append]
  have hpre : ("Based on the available information: " : String).length = 36 := rfl
  omega

/-! ### Ingest collection guard (`backend/app.py`, `backend/app_enhanced.py`) -/

/-- Outcome of the collection guard at the start of an `/ingest` request:
either an early error result (with the number of chunks indexed, always 0)
or proceeding to `ingest_files` (which upserts), possibly after recreating
the collection. -/
inductive GuardOutcome
  | errorResponse (chunksIndexed : Nat)
  | proceed (recreated : Bool)
deriving DecidableEq

/-- `get_embedding_backend` (`backend/ingest.py` lines 53–56): the OpenAI
backend (dimension 1536) when `OPENAI_API_KEY` is set, otherwise the MiniLM
backend (dimension 384). -/
def get_embedding_backend_dim (hasApiKey : Bool) : Nat :=
  if hasApiKey then 1536 else 384

/-- The collection guard of `/ingest` in `backend/app.py` (lines 43–63).
`existing` is the vector size of the collection when `get_collection`
succeeds, `none` when it raises.  A size mismatch returns an
`IngestResponse` with `chunks_indexed = 0` and an error detail, before any
file is saved or upserted; otherwise the request proceeds, recreating the
collection only when it did not exist. -/
def appIngestGuard (existing : Option Nat) (dim : Nat) : GuardOutcome :=
  match existing with
  | some size => if size ≠ dim then .errorResponse 0 else .proceed false
  | none => .proceed true

/-- The collection guard of `/ingest` in `backend/app_enhanced.py` (lines
205–223).  The `HTTPException(400)` raised for a size mismatch at line 211
is raised *inside* the `try:` whose `except Exception:` (line 215) sets
`exists = False`; the exception is therefore swallowed, and the endpoint
recreates the collection and proceeds with ingestion and upsert. -/
def enhancedIngestGuard (existing : Option Nat) (dim : Nat) : GuardOutcome :=
  match existing with
  | some size => if size ≠ dim then .proceed true else .proceed false
  | none => .proceed true

/-- C3 (bug evidence): with an existing collection of dimension 1536 (built
by the OpenAI backend) and the MiniLM backend active (dimension 384),
`app.py` returns the error response with zero chunks indexed and leaves the
collection alone — but `app_enhanced.py` swallows its own mismatch
exception, recreates the collection (discarding the stored vectors) and
proceeds to ingest and upsert, contradicting the claimed guard. -/
theorem ingest_dimension_guard_bug :
    appIngestGuard (some (get_embedding_backend_dim true))
        (get_embedding_backend_dim false) = .errorResponse 0 ∧
    enhancedIngestGuard (some (get_embedding_backend_dim true))
        (get_embedding_backend_dim false) = .proceed true := by
  constructor <;> decide

/-! ### Conversation window (`backend/database.py`, `backend/app_enhanced.py`) -/

/-- A stored chat message (the fields the conversation window uses). -/
structure DBMessage where
  role : String
  content : String
deriving DecidableEq

/-- Python `str.upper()` (per-character uppercasing). -/
def pyUpper (s : String) : String := String.mk (s.data.map Char.toUpper)

/-- `Database.get_messages` (`backend/database.py` lines 161–177):
`SELECT * FROM messages WHERE session_id = ? ORDER BY created_at ASC
LIMIT ?` — the *earliest* `limit` messages, oldest first.  `msgs` is the
session's full message list in creation order. -/
def get_messages (msgs : List DBMessage) (limit : Nat) : List DBMessage :=
  msgs.take limit

/-- `Database.get_conversation_context` (`backend/database.py` lines
179–185): `self.get_messages(session_id)[-max_messages:]` — note the inner
call uses the default `limit = 100` — rendered as `ROLE: content` lines. -/
def get_conversation_context (msgs : List DBMessage) (max_messages : Nat) :
    String :=
  pyJoin "\n" (((get_messages msgs 100).drop
      ((get_messages msgs 100).length - max_messages)).map
    (fun m => pyUpper m.role ++ ": " ++ m.content))

/-- Written from the spec's words, for comparison: the most recent
`k` messages of the whole conversation, oldest first, rendered as
`ROLE: content` lines. -/
def mostRecentContextSpec (msgs : List DBMessage) (k : Nat) : String :=
  pyJoin "\n" ((msgs.drop (msgs.length - k)).map
    (fun m => pyUpper m.role ++ ": " ++ m.content))

/-- The data a single `/ask` request threads through the pipeline. -/
structure AskTrace where
  retrievalQuery : String
  synthesisQuestion : String
  answer : Answer

/-- The `/ask` pipeline of `backend/app_enhanced.py` (lines 316–357),
restricted to its data flow: the user message is appended to the session
first (line 329); with `use_history` the conversation window is rendered
(line 334) and, when non-empty, wrapped and prepended to the question to
form the retrieval query (lines 336, 340); retrieval runs on that query
(line 341) while synthesis receives the bare question (line 344).
`retrieveFn` stands for `retrieve(qclient, COLLECTION_NAME, ·, emb)`. -/
def ask_enhanced (retrieveFn : String → List RankedDoc)
    (genModel : Option (String → String → String))
    (stored : List DBMessage) (question : String) (use_history : Bool) :
    AskTrace :=
  let msgs := stored ++ [⟨"user", question⟩]
  let ctxPre :=
    if use_history then
      if get_conversation_context msgs 6 ≠ "" then
        "Previous conversation:\n" ++ get_conversation_context msgs 6
          ++ "\n\nCurrent question: "
      else ""
    else ""
  let question_with_context := if ctxPre ≠ "" then ctxPre ++ question else question
  ⟨question_with_context, question,
    answer_question genModel question (retrieveFn question_with_context)⟩

/-- A session with 101 prior messages `m0 … m100`, oldest first. -/
def longSession : List DBMessage :=
  (List.range 101).map (fun i => ⟨"user", "m" ++ toString i⟩)

/-- C7 (bug evidence): the pipeline does use the rendered history only for
the retrieval query and hands the bare question to synthesis — but the
window is *not* the most recent six messages.  At a session with 101 prior
messages plus the fresh question, `get_conversation_context` renders
`m94 … m99` (the last six of the *earliest hundred*), omitting the current
question and the most recent stored messages, and differs from the
most-recent-six rendering the claim describes. -/
theorem conversation_window_bug :
    (ask_enhanced (fun _ => []) none longSession "q0" true).synthesisQuestion
      = "q0" ∧
    (ask_enhanced (fun _ => []) none longSession "q0" true).retrievalQuery =
      "Previous conversation:\n"
        ++ get_conversation_context (longSession ++ [⟨"user", "q0"⟩]) 6
        ++ "\n\nCurrent question: " ++ "q0" ∧
    get_conversation_context (longSession ++ [⟨"user", "q0"⟩]) 6 =
      "USER: m94\nUSER: m95\nUSER: m96\nUSER: m97\nUSER: m98\nUSER: m99" ∧
    mostRecentContextSpec (longSession ++ [⟨"user", "q0"⟩]) 6 =
      "USER: m96\nUSER: m97\nUSER: m98\nUSER: m99\nUSER: m100\nUSER: q0" ∧
    get_conversation_context (longSession ++ [⟨"user", "q0"⟩]) 6 ≠
      mostRecentContextSpec (longSession ++ [⟨"user", "q0"⟩]) 6 := by
  refine ⟨?_, ?_, ?_, ?_, ?_⟩ <;> decide

/-! ### Document loader (`backend/ingest.py`, `backend/utils.py`) -/

/-- One unit of a file's byte stream as seen by the UTF-8 decoder: either a
decoded character or an undecodable byte. -/
inductive DecodeUnit
  | ok (c : Char)
  | bad (b : Nat)
deriving DecidableEq

/-- `open(path, "r", encoding="utf-8", errors="ignore").read()`: decoding
with `errors="ignore"` silently drops undecodable bytes. -/
def decodeIgnore (units : List DecodeUnit) : String :=
  String.mk (units.filterMap (fun u => match u with
    | .ok c => some c
    | .bad _ => none))

/-- Written from the spec's words, for comparison: permissive decoding in
which "undecodable bytes are replaced" — the `errors="replace"` policy,
every bad byte becoming U+FFFD. -/
def decodeReplaceSpec (units : List DecodeUnit) : String :=
  String.mk (units.map (fun u => match u with
    | .ok c => c
    | .bad _ => '�'))

/-- `parse_pdf_pages` (`backend/utils.py` lines 12–18): `extracted` holds
the result of `page.extract_text()` per page, `none` when extraction
returns nothing (handled by `or ""` in the source). -/
def parse_pdf_pages (extracted : List (Option String)) : List (Nat × String) :=
  extracted.enum.map (fun ie => (ie.1 + 1, normalize_text (ie.2.getD "")))

/-- `_load_document` (`backend/ingest.py` lines 83–101).  `ext` is
`Path(filename).suffix.lower()`; `pdfPages` carries the per-page extraction
results (consumed only on the `.pdf` branch); `fileUnits` carries the file's
decode units (consumed otherwise). -/
def _load_document (ext : String) (pdfPages : List (Option String))
    (fileUnits : List DecodeUnit) : List (Nat × Nat × String) :=
  if ext = ".pdf" then
    (parse_pdf_pages pdfPages).map (fun pc => (pc.1, pc.1, pc.2))
  else if ext = ".md" ∨ ext = ".markdown" ∨ ext = ".txt" then
    [(1, 1, normalize_text (decodeIgnore fileUnits))]
  else
    [(1, 1, normalize_text (decodeIgnore fileUnits))]

lemma normalize_text_single_a : normalize_text "a" = "a" := by
  show String.mk (normChars ['a']) = "a"
  rw [normChars]
  have h1 : (['a'].map replaceNBSP) = ['a'] := by decide
  rw [h1, collapseWS_of_clean ['a'] (by decide) (List.chain'_singleton _)]
  decide

lemma _load_document_pdf (pdfPages : List (Option String))
    (fileUnits : List DecodeUnit) :
    _load_document ".pdf" pdfPages fileUnits =
      (parse_pdf_pages pdfPages).map (fun pc => (pc.1, pc.1, pc.2)) := by
  unfold _load_document
  rw [if_pos rfl]

lemma _load_document_flat (ext : String) (h : ext ≠ ".pdf")
    (pdfPages : List (Option String)) (fileUnits : List DecodeUnit) :
    _load_document ext pdfPages fileUnits =
      [(1, 1, normalize_text (decodeIgnore fileUnits))] := by
  unfold _load_document
  rw [if_neg h]
  split <;> rfl

/-- C9 counterexample: loading a `.txt` file containing the letter `a`
followed by one undecodable byte `0xE9` yields the text `"a"` — the bad byte
is *dropped* (`errors="ignore"`), not replaced as the claim states; the
`errors="replace"` reading would give `"a�"`. -/
theorem load_document_replace_counterexample :
    _load_document ".txt" [] [DecodeUnit.ok 'a', DecodeUnit.bad 0xE9] =
      [(1, 1, "a")] ∧
    decodeReplaceSpec [DecodeUnit.ok 'a', DecodeUnit.bad 0xE9] = "a�" ∧
    ("a" : String) ≠ "a�" := by
  refine ⟨?_, by decide, by decide⟩
  have hd : decodeIgnore [DecodeUnit.ok 'a', DecodeUnit.bad 0xE9] = "a" := by
    decide
  rw [_load_document_flat ".txt" (by decide) _ _, hd, normalize_text_single_a]

/-- The conclusion of the amended claim C9: the loader dispatches on the
extension; for a PDF it emits one tuple per page, `page_start = page_end =`
the 1-indexed page number, a failed extraction becoming the empty string
without aborting the document; for every other extension it emits the single
tuple `(1, 1, whole decoded content)`, the permissive decoding *dropping*
undecodable bytes rather than failing. -/
def LoadDocumentSpec (ext : String) (pdfPages : List (Option String))
    (fileUnits : List DecodeUnit) : Prop :=
  (_load_document ".pdf" pdfPages fileUnits).length = pdfPages.length ∧
  (∀ i, (_load_document ".pdf" pdfPages fileUnits)[i]? =
      (pdfPages[i]?).map (fun e => (i + 1, i + 1, normalize_text (e.getD "")))) ∧
  (ext ≠ ".pdf" →
    _load_document ext pdfPages fileUnits =
      [(1, 1, normalize_text (decodeIgnore fileUnits))])

/-- C9 (amended): as `LoadDocumentSpec` — identical to the claim except that
undecodable bytes are dropped (ignored), not replaced. -/
theorem load_document_spec (ext : String) (pdfPages : List (Option String))
    (fileUnits : List DecodeUnit) : LoadDocumentSpec ext pdfPages fileUnits := by
  refine ⟨?_, ?_, ?_⟩
  · rw [_load_document_pdf]
    simp [parse_pdf_pages]
  · intro i
    rw [_load_document_pdf, parse_pdf_pages, List.map_map, List.getElem?_map,
      List.enum, List.getElem?_enumFrom]
    cases pdfPages[i]? <;> simp [Function.comp]
  · intro h
    exact _load_document_flat ext h pdfPages fileUnits

/-- Witness for C9 (amended) at a concrete non-PDF extension and inputs. -/
theorem load_document_spec_witness :
    (".txt" : String) ≠ ".pdf" ∧
      LoadDocumentSpec ".txt" [some "page one", none]
        [DecodeUnit.ok 'h', DecodeUnit.ok 'i', DecodeUnit.bad 0xFF] :=
  ⟨by decide, load_document_spec ".txt" [some "page one", none]
    [DecodeUnit.ok 'h', DecodeUnit.ok 'i', DecodeUnit.bad 0xFF]⟩

/-! ### Embedding backends (`backend/ingest.py`) -/

/-- `OpenAIEmbeddingBackend.embed_texts` (`backend/ingest.py` lines 33–37):
`apiCall` models the remote request `client.embeddings.create` together with
the extraction of the embedding vectors from its response. -/
def openai_embed_texts {V : Type} (apiCall : List String → List V)
    (texts : List String) : List V :=
  if texts.isEmpty then [] else apiCall texts

/-- `MiniLMEmbeddingBackend.embed_texts` (`backend/ingest.py` lines 46–50):
`encode` models `self.model.encode(texts, normalize_embeddings=True)`. -/
def minilm_embed_texts {V : Type} (encode : List String → List V)
    (texts : List String) : List V :=
  if texts.isEmpty then [] else encode texts

/-- C10: both embedding backends return `[]` immediately for an empty input
list; the result does not depend on the external service or model call in
any way — the call is never consulted. -/
theorem embed_texts_empty {V : Type} (f g : List String → List V) :
    openai_embed_texts f [] = [] ∧ minilm_embed_texts f [] = [] ∧
    openai_embed_texts f [] = openai_embed_texts g [] ∧
    minilm_embed_texts f [] = minilm_embed_texts g [] :=
  ⟨rfl, rfl, rfl, rfl⟩

end RagChatbot
